import Mathlib

/-!
# Verification of the meta-DCE graph loader and reachability pipeline

Shallow embedding of `src/tools/wasm-metadce.cpp`.  The source file contains
the graph data model (`DCENode`, `MetaDCEGraph`, lines 41-57) and the loader
loop of `main` (lines 164-221), which parses a JSON description of an
external reachability graph into the `MetaDCEGraph`.  The JSON representation
(cashew), the wasm `Module`, `ImportUtils::getImport`, and the downstream
reachability / pruning stages are not present under `src`; those are modelled
from the spec and marked as such in their doc comments.
-/

/-- Modelled from the spec: the parsed JSON values the external parser
(cashew's `simple_ast`, not under `src`) delivers to the loader — the
"pre-parsed sequence of records" of the graph description format. -/
inductive JValue where
  | null
  | boolean (b : Bool)
  | num (n : Int)
  | str (s : String)
  | arr (items : List JValue)
  | obj (fields : List (String × JValue))

/-- Modelled from the spec: `Ref::isArray` of the external JSON library. -/
def JValue.isArr : JValue → Bool
  | .arr _ => true
  | _ => false

/-- Modelled from the spec: `Ref::isObject` of the external JSON library. -/
def JValue.isObj : JValue → Bool
  | .obj _ => true
  | _ => false

/-- Modelled from the spec: `Ref::isString` of the external JSON library. -/
def JValue.isStr : JValue → Bool
  | .str _ => true
  | _ => false

/-- Modelled from the spec: `Ref::isBool` of the external JSON library. -/
def JValue.isBoolean : JValue → Bool
  | .boolean _ => true
  | _ => false

/-- Modelled from the spec: `Ref::getBool`, the boolean payload (other
values do not reach it in the loader, a default is supplied). -/
def JValue.getBool : JValue → Bool
  | .boolean b => b
  | _ => false

/-- Modelled from the spec: `Ref::getIString`, the string payload (other
values do not reach it in the loader, a default is supplied). -/
def JValue.getIString : JValue → String
  | .str s => s
  | _ => ""

/-- Lookup in an association list: the first binding of the key wins.
This is the read operation of `std::unordered_map`. -/
def mapFind {α : Type} : List (String × α) → String → Option α
  | [], _ => none
  | (k, v) :: rest, key => if k = key then some v else mapFind rest key

/-- Write through `operator[]` of `std::unordered_map`: replace the existing
binding of the key, or append a fresh one. -/
def mapSet {α : Type} : List (String × α) → String → α → List (String × α)
  | [], key, v => [(key, v)]
  | (k, w) :: rest, key, v =>
      if k = key then (key, v) :: rest else (k, w) :: mapSet rest key v

/-- Modelled from the spec: field access `ref[NAME]` / `ref.has(NAME)` on a
JSON object. -/
def jGetField : JValue → String → Option JValue
  | .obj fields, key => mapFind fields key
  | _, _ => none

/-- `DCENode` (source lines 41-45): a node of the abstract reachability
graph, its name and the names of the other nodes it reaches. -/
structure DCENode where
  name : String
  reaches : List String
deriving DecidableEq, Repr

/-- Modelled from the spec: one entry of the module's actual table of
imported entities, identified by the pair (module name, base name) and
carrying the internal identifier the module's call graph uses for it. -/
structure WasmImport where
  impModule : String
  impBase : String
  internalName : String
deriving DecidableEq, Repr

/-- Modelled from the spec: the module boundary — the core needs only the
export table (symbol names) and the import table from the wasm module. -/
structure WasmModule where
  moduleExports : List String
  moduleImports : List WasmImport
deriving DecidableEq, Repr

/-- Modelled from the spec: `ImportUtils::getImport` (not under `src`)
resolves an import by (moduleName, baseName) to the module's internal
identifier for that import, or fails when the module has no such import. -/
def getImport (wasm : WasmModule) (m b : String) : Option String :=
  (wasm.moduleImports.find? (fun i => i.impModule = m && i.impBase = b)).map
    (fun i => i.internalName)

/-- `MetaDCEGraph` (source lines 48-57): the node store, the root sequence,
and the two linkage tables from module import/export names to DCE node
names.  The reference to the wasm module is passed separately here. -/
structure MetaDCEGraph where
  nodes : List (String × DCENode) := []
  roots : List String := []
  importToDCENode : List (String × String) := []
  exportToDCENode : List (String × String) := []
deriving DecidableEq, Repr

/-- The fatal configuration errors of the run (`Fatal()` exits in the
source; spec section 7 names the taxonomy). -/
inductive DCEErr where
  | InputNotArray
  | NodeNotObject
  | MissingName
  | ReachesNotArray
  | ReachesItemNotString
  | RootNotTrue
  | ExportNotString
  | ImportNotPair
  | UnresolvedImport
  | UnresolvedExport
  | DanglingReference
deriving DecidableEq, Repr

/-- Source lines 190-196: walk the `reaches` array in order, failing at the
first item that is not a string, collecting the string payloads. -/
def parseReaches : List JValue → Except DCEErr (List String)
  | [] => .ok []
  | item :: rest =>
    match item with
    | .str s => do
        let tail ← parseReaches rest
        .ok (s :: tail)
    | _ => .error .ReachesItemNotString

/-- Source lines 177-197: validate that the record is an object with a
`name`, build the `DCENode`, and fill its `reaches` list (the array check of
line 186 and the per-item string checks of line 192).  Line 180 checks the
presence of the `name` field on the current record. -/
def parseDCENode (ref : JValue) : Except DCEErr DCENode :=
  match ref with
  | .obj fields =>
    match mapFind fields "name" with
    | none => .error .MissingName
    | some nv =>
      match mapFind fields "reaches" with
      | none => .ok ⟨nv.getIString, []⟩
      | some (.arr items) => do
          let rs ← parseReaches items
          .ok ⟨nv.getIString, rs⟩
      | some _ => .error .ReachesNotArray
  | _ => .error .NodeNotObject

/-- Source lines 198-204: a `root` field, when present, must be the boolean
`true`; the node's name is then appended to the root sequence. -/
def applyRoot (g : MetaDCEGraph) (ref : JValue) (nd : DCENode) :
    Except DCEErr MetaDCEGraph :=
  match jGetField ref "root" with
  | none => .ok g
  | some r =>
      if r.isBoolean && r.getBool then
        .ok { g with roots := g.roots ++ [nd.name] }
      else
        .error .RootNotTrue

/-- Source lines 205-211: an `export` field, when present, must be a string;
the loader then records `exportToDCENode[symbol] = node.name` without
consulting the module's export table. -/
def applyExportField (g : MetaDCEGraph) (ref : JValue) (nd : DCENode) :
    Except DCEErr MetaDCEGraph :=
  match jGetField ref "export" with
  | none => .ok g
  | some (.str s) =>
      .ok { g with exportToDCENode := mapSet g.exportToDCENode s nd.name }
  | some _ => .error .ExportNotString

/-- Source lines 212-218: an `import` field, when present, must be a
two-element array of strings; the pair is resolved through `getImport`
against the module and `importToDCENode[internalId] = node.name` recorded.
Resolution failure is a fatal configuration error (spec sections 4.3, 7). -/
def applyImportField (wasm : WasmModule) (g : MetaDCEGraph) (ref : JValue)
    (nd : DCENode) : Except DCEErr MetaDCEGraph :=
  match jGetField ref "import" with
  | none => .ok g
  | some (.arr [.str m, .str b]) =>
      match getImport wasm m b with
      | some id =>
          .ok { g with importToDCENode := mapSet g.importToDCENode id nd.name }
      | none => .error .UnresolvedImport
  | some _ => .error .ImportNotPair

/-- Source lines 177-221, one loop iteration: parse the record, register
root / export / import linkage, then insert the node into the store
(line 220: `graph.nodes[node.name] = node`, replacing any previous node of
that name). -/
def loadOne (wasm : WasmModule) (g : MetaDCEGraph) (ref : JValue) :
    Except DCEErr MetaDCEGraph := do
  let nd ← parseDCENode ref
  let g1 ← applyRoot g ref nd
  let g2 ← applyExportField g1 ref nd
  let g3 ← applyImportField wasm g2 ref nd
  .ok { g3 with nodes := mapSet g3.nodes nd.name nd }

/-- The loader loop (source lines 175-221): records are consumed in order
and the first fatal error aborts the whole load. -/
def loadNodes (wasm : WasmModule) : MetaDCEGraph → List JValue →
    Except DCEErr MetaDCEGraph
  | g, [] => .ok g
  | g, ref :: rest => do
      let g' ← loadOne wasm g ref
      loadNodes wasm g' rest

/-- Source lines 170-221: the top-level input must be a JSON array
(line 171), whose records are then loaded in order into an empty graph. -/
def loadGraph (wasm : WasmModule) (json : JValue) : Except DCEErr MetaDCEGraph :=
  match json with
  | .arr items => loadNodes wasm {} items
  | _ => .error .InputNotArray

/-- The names present in the node store (the keys of `nodes`). -/
def storeKeys (g : MetaDCEGraph) : List String := g.nodes.map Prod.fst

/-- Auxiliary: a filter by a strictly smaller predicate is no longer. -/
theorem length_filter_mono {α : Type} (p q : α → Bool)
    (hpq : ∀ x, q x = true → p x = true) (l : List α) :
    (l.filter q).length ≤ (l.filter p).length := by
  induction l with
  | nil => simp
  | cons a t ih =>
    by_cases hq : q a = true
    · simp [List.filter, hq, hpq a hq]
      omega
    · have hq' : q a = false := by
        cases h : q a
        · rfl
        · exact absurd h hq
      by_cases hp : p a = true
      · simp [List.filter, hq', hp]
        omega
      · have hp' : p a = false := by
          cases h : p a
          · rfl
          · exact absurd h hp
        simp [List.filter, hq', hp']
        exact ih

/-- Auxiliary: a filter by a strictly smaller predicate, witnessed by a
member on which they differ, is strictly shorter. -/
theorem length_filter_strict {α : Type} (p q : α → Bool)
    (hpq : ∀ x, q x = true → p x = true) (l : List α) (n : α)
    (hn : n ∈ l) (hqn : q n = false) (hpn : p n = true) :
    (l.filter q).length < (l.filter p).length := by
  induction l with
  | nil => cases hn
  | cons a t ih =>
    rcases List.mem_cons.mp hn with rfl | hmem
    · simp [List.filter, hqn, hpn]
      have := length_filter_mono p q hpq t
      omega
    · by_cases hq : q a = true
      · simp [List.filter, hq, hpq a hq]
        have := ih hmem
        omega
      · have hq' : q a = false := by
          cases h : q a
          · rfl
          · exact absurd h hq
        by_cases hp : p a = true
        · simp [List.filter, hq', hp]
          have := ih hmem
          omega
        · have hp' : p a = false := by
            cases h : p a
            · rfl
            · exact absurd h hp
          simp [List.filter, hq', hp']
          exact ih hmem

/-- Auxiliary: a successful `mapFind` means the key is among the keys. -/
theorem mapFind_some_mem_keys {α : Type} {m : List (String × α)} {k : String}
    {v : α} (h : mapFind m k = some v) : k ∈ m.map Prod.fst := by
  induction m with
  | nil => simp [mapFind] at h
  | cons p rest ih =>
    by_cases hk : p.1 = k
    · simp [hk]
    · simp only [mapFind, hk, if_false] at h
      · simp [ih h]

/-- Modelled from the spec: the Reachability Engine's worklist traversal —
breadth-first from all roots at once, following `reaches` edges, guarded by
a visited list so that each node is expanded at most once; names without a
store entry are skipped (after the dangling check they cannot occur).  The
returned list is the visited set in expansion order. -/
def bfsWalk (g : MetaDCEGraph) (queue visited : List String) : List String :=
  match queue with
  | [] => visited
  | n :: rest =>
    if hvis : n ∈ visited then bfsWalk g rest visited
    else
      match hfind : mapFind g.nodes n with
      | none => bfsWalk g rest visited
      | some nd => bfsWalk g (rest ++ nd.reaches) (visited ++ [n])
termination_by
  (((storeKeys g).filter (fun x => decide (x ∉ visited))).length, queue.length)
decreasing_by
  · apply Prod.Lex.right
    simp
  · apply Prod.Lex.right
    simp
  · apply Prod.Lex.left
    refine length_filter_strict _ _ ?_ _ n ?_ ?_ ?_
    · intro x hx
      simp only [decide_eq_true_eq] at hx ⊢
      intro hmem
      exact hx (List.mem_append_left _ hmem)
    · simpa [storeKeys] using mapFind_some_mem_keys hfind
    · simp
    · simp [hvis]

/-- Modelled from the spec: the dangling-reference scan — some loaded node
has a `reaches` target that names no node in the store. -/
def findDangling (g : MetaDCEGraph) : Bool :=
  g.nodes.any (fun p => p.2.reaches.any (fun m => (mapFind g.nodes m).isNone))

/-- Modelled from the spec: the Reachability Engine — dangling references
are a fatal `DanglingReference` configuration error detected before the
traversal completes; otherwise the visited set of the worklist traversal
from the roots is returned. -/
def computeReachable (g : MetaDCEGraph) : Except DCEErr (List String) :=
  if findDangling g then .error .DanglingReference
  else .ok (bfsWalk g g.roots [])

/-- The closure of the roots under `reaches`, restricted to names of nodes
present in the store: the specification of the Reachable Set. -/
inductive InReach (g : MetaDCEGraph) : String → Prop where
  | root (n : String) : n ∈ g.roots → (mapFind g.nodes n).isSome →
      InReach g n
  | step (n m : String) (nd : DCENode) : InReach g n →
      mapFind g.nodes n = some nd → m ∈ nd.reaches →
      (mapFind g.nodes m).isSome → InReach g m

/-- Modelled from the spec: `removableExports` — the module export symbols
in `exportToDCENode` whose bound node name is absent from the Reachable
Set (spec section 4.5 (a)); kept in table order, which is deterministic. -/
def removableExports (g : MetaDCEGraph) (res : List String) : List String :=
  (g.exportToDCENode.map Prod.fst).filter (fun sym =>
    match mapFind g.exportToDCENode sym with
    | some nm => decide (nm ∉ res)
    | none => false)

/-- Modelled from the spec: `removableImports` — the module imports in
`importToDCENode` whose bound node name is absent from the Reachable Set. -/
def removableImports (g : MetaDCEGraph) (res : List String) : List String :=
  (g.importToDCENode.map Prod.fst).filter (fun sym =>
    match mapFind g.importToDCENode sym with
    | some nm => decide (nm ∉ res)
    | none => false)

/-- The node names bound to some export or import linkage. -/
def boundNames (g : MetaDCEGraph) : List String :=
  g.exportToDCENode.map Prod.snd ++ g.importToDCENode.map Prod.snd

/-- Modelled from the spec: `removableExternal` — node names not bound to
any export/import linkage and absent from the Reachable Set. -/
def removableExternal (g : MetaDCEGraph) (res : List String) : List String :=
  (storeKeys g).filter (fun nm =>
    decide (nm ∉ boundNames g) && decide (nm ∉ res))

/-- Modelled from the spec: the Report triple. -/
structure DCEReport where
  outExports : List String
  outImports : List String
  outExternal : List String
deriving DecidableEq, Repr

/-- Modelled from the spec: pruning — remove each removable export from the
module's export table and each removable import from its import table. -/
def pruneModule (wasm : WasmModule) (g : MetaDCEGraph) (res : List String) :
    WasmModule :=
  { moduleExports :=
      wasm.moduleExports.filter (fun e => decide (e ∉ removableExports g res)),
    moduleImports :=
      wasm.moduleImports.filter
        (fun i => decide (i.internalName ∉ removableImports g res)) }

/-- Modelled from the spec: the whole single-pass pipeline — load, then
traverse, then prune and report.  A fatal error at any stage aborts the run
before any module mutation. -/
def metadce (wasm : WasmModule) (json : JValue) :
    Except DCEErr (WasmModule × DCEReport) := do
  let g ← loadGraph wasm json
  let res ← computeReachable g
  .ok (pruneModule wasm g res,
    ⟨removableExports g res, removableImports g res, removableExternal g res⟩)

/-! ## Association-list lemmas -/

theorem mapFind_mapSet_self {α : Type} (m : List (String × α)) (k : String)
    (v : α) : mapFind (mapSet m k v) k = some v := by
  induction m with
  | nil => simp [mapSet, mapFind]
  | cons p rest ih =>
    by_cases hk : p.1 = k
    · simp [mapSet, hk, mapFind]
    · simp [mapSet, hk, mapFind, ih]

theorem mapFind_mapSet_ne {α : Type} (m : List (String × α)) (k k' : String)
    (v : α) (hne : k ≠ k') : mapFind (mapSet m k v) k' = mapFind m k' := by
  induction m with
  | nil => simp [mapSet, mapFind, hne]
  | cons p rest ih =>
    by_cases hk : p.1 = k
    · simp [mapSet, hk, mapFind, hne]
    · simp only [mapSet, hk, if_false]
      by_cases hk' : p.1 = k'
      · simp [mapFind, hk']
      · simp [mapFind, hk', ih]

theorem mapFind_mapSet_isSome {α : Type} (m : List (String × α))
    (k k' : String) (v : α) (h : (mapFind m k').isSome) :
    (mapFind (mapSet m k v) k').isSome := by
  by_cases hk : k = k'
  · subst hk
    simp [mapFind_mapSet_self]
  · rwa [mapFind_mapSet_ne m k k' v hk]

/-! ## The name a record carries, and the last record of a given name -/

/-- The name field of a record, as the loader reads it (line 183). -/
def recordName (ref : JValue) : String :=
  ((jGetField ref "name").getD .null).getIString

/-- The last record of the input sequence bearing the given name — the one
whose node survives the loader's last-write-wins insertion. -/
def lastMatch (items : List JValue) (nm : String) : Option JValue :=
  match items with
  | [] => none
  | r :: rest =>
    match lastMatch rest nm with
    | some x => some x
    | none => if recordName r = nm then some r else none

theorem parseDCENode_name {ref : JValue} {nd : DCENode}
    (h : parseDCENode ref = .ok nd) : nd.name = recordName ref := by
  unfold parseDCENode at h
  cases ref with
  | obj fields =>
    simp only [] at h
    cases hnv : mapFind fields "name" with
    | none => simp [hnv] at h
    | some nv =>
      simp only [hnv] at h
      cases hr : mapFind fields "reaches" with
      | none =>
        simp only [hr, Except.ok.injEq] at h
        subst h
        simp [recordName, jGetField, hnv]
      | some rv =>
        cases rv with
        | arr items =>
          simp only [hr] at h
          cases hpr : parseReaches items with
          | ok rs =>
            simp only [hpr, Except.bind, bind, Except.ok.injEq] at h
            subst h
            simp [recordName, jGetField, hnv]
          | error e => simp [hpr, Except.bind, bind] at h
        | null => simp [hr] at h
        | boolean b => simp [hr] at h
        | num n => simp [hr] at h
        | str s => simp [hr] at h
        | obj l => simp [hr] at h
  | null => simp at h
  | boolean b => simp at h
  | num n => simp at h
  | str s => simp at h
  | arr items => simp at h

/-! ## Stage lemmas for one loader iteration -/

theorem applyRoot_ok {g g1 : MetaDCEGraph} {ref : JValue} {nd : DCENode}
    (h : applyRoot g ref nd = .ok g1) :
    g1.nodes = g.nodes ∧ g1.exportToDCENode = g.exportToDCENode ∧
    g1.importToDCENode = g.importToDCENode ∧
    g1.roots = g.roots ++
      (match jGetField ref "root" with
       | none => []
       | some _ => [nd.name]) := by
  unfold applyRoot at h
  cases hr : jGetField ref "root" with
  | none =>
    simp only [hr, Except.ok.injEq] at h
    subst h
    simp
  | some r =>
    simp only [hr] at h
    by_cases hb : r.isBoolean && r.getBool
    · simp only [hb, if_true, Except.ok.injEq] at h
      subst h
      simp
    · simp [hb] at h

theorem applyExportField_ok {g g1 : MetaDCEGraph} {ref : JValue}
    {nd : DCENode} (h : applyExportField g ref nd = .ok g1) :
    g1.nodes = g.nodes ∧ g1.roots = g.roots ∧
    g1.importToDCENode = g.importToDCENode ∧
    g1.exportToDCENode = (match jGetField ref "export" with
       | some (.str s) => mapSet g.exportToDCENode s nd.name
       | _ => g.exportToDCENode) := by
  unfold applyExportField at h
  cases he : jGetField ref "export" with
  | none =>
    simp only [he, Except.ok.injEq] at h
    subst h
    simp
  | some e =>
    cases e with
    | str s =>
      simp only [he, Except.ok.injEq] at h
      subst h
      simp
    | null => simp [he] at h
    | boolean b => simp [he] at h
    | num n => simp [he] at h
    | arr l => simp [he] at h
    | obj l => simp [he] at h

theorem applyImportField_ok {wasm : WasmModule} {g g1 : MetaDCEGraph}
    {ref : JValue} {nd : DCENode}
    (h : applyImportField wasm g ref nd = .ok g1) :
    g1.nodes = g.nodes ∧ g1.roots = g.roots ∧
    g1.exportToDCENode = g.exportToDCENode := by
  unfold applyImportField at h
  cases hi : jGetField ref "import" with
  | none =>
    simp only [hi, Except.ok.injEq] at h
    subst h
    simp
  | some i =>
    cases i with
    | arr l =>
      match l with
      | [] => simp [hi] at h
      | [x] =>
        cases x <;> simp [hi] at h
      | [x, y] =>
        cases x with
        | str m =>
          cases y with
          | str b =>
            simp only [hi] at h
            cases hg : getImport wasm m b with
            | none => simp [hg] at h
            | some id =>
              simp only [hg, Except.ok.injEq] at h
              subst h
              simp
          | null => simp [hi] at h
          | boolean bb => simp [hi] at h
          | num nn => simp [hi] at h
          | arr ll => simp [hi] at h
          | obj ll => simp [hi] at h
        | null => simp [hi] at h
        | boolean bb => simp [hi] at h
        | num nn => simp [hi] at h
        | arr ll => simp [hi] at h
        | obj ll => simp [hi] at h
      | x :: y :: z :: t => simp [hi] at h
    | null => simp [hi] at h
    | boolean b => simp [hi] at h
    | num n => simp [hi] at h
    | str s => simp [hi] at h
    | obj l => simp [hi] at h

/-- The shape of a successful loader iteration: the parsed node is inserted
under its name, and the root sequence grows by exactly that name when the
record carries a `root` field. -/
theorem loadOne_ok_spec {wasm : WasmModule} {g g' : MetaDCEGraph}
    {ref : JValue} (h : loadOne wasm g ref = .ok g') :
    ∃ nd, parseDCENode ref = .ok nd ∧
      g'.nodes = mapSet g.nodes nd.name nd ∧
      g'.roots = g.roots ++
        (match jGetField ref "root" with
         | none => []
         | some _ => [nd.name]) := by
  unfold loadOne at h
  cases hp : parseDCENode ref with
  | error e => simp [hp, Except.bind, bind] at h
  | ok nd =>
    simp only [hp, Except.bind, bind] at h
    cases h1 : applyRoot g ref nd with
    | error e => simp [h1] at h
    | ok g1 =>
      simp only [h1] at h
      cases h2 : applyExportField g1 ref nd with
      | error e => simp [h2] at h
      | ok g2 =>
        simp only [h2] at h
        cases h3 : applyImportField wasm g2 ref nd with
        | error e => simp [h3] at h
        | ok g3 =>
          simp only [h3, Except.ok.injEq] at h
          subst h
          obtain ⟨e1n, _, _, e1r⟩ := applyRoot_ok h1
          obtain ⟨e2n, e2r, _, _⟩ := applyExportField_ok h2
          obtain ⟨e3n, e3r, _⟩ := applyImportField_ok h3
          exact ⟨nd, rfl, by simp [e3n, e2n, e1n], by simp [e3r, e2r, e1r]⟩

/-! ## Loader invariants -/

/-- Every root name has a node in the store. -/
def rootsInStore (g : MetaDCEGraph) : Prop :=
  ∀ r ∈ g.roots, (mapFind g.nodes r).isSome

theorem loadOne_rootsInStore {wasm : WasmModule} {g g' : MetaDCEGraph}
    {ref : JValue} (hg : rootsInStore g) (h : loadOne wasm g ref = .ok g') :
    rootsInStore g' := by
  obtain ⟨nd, _, hnodes, hroots⟩ := loadOne_ok_spec h
  intro r hr
  rw [hroots] at hr
  rw [hnodes]
  rcases List.mem_append.mp hr with hold | hnew
  · exact mapFind_mapSet_isSome _ _ _ _ (hg r hold)
  · cases hfield : jGetField ref "root" with
    | none => simp [hfield] at hnew
    | some _ =>
      simp [hfield] at hnew
      subst hnew
      simp [mapFind_mapSet_self]

theorem loadNodes_rootsInStore {wasm : WasmModule} {g0 g : MetaDCEGraph}
    {items : List JValue} (hg : rootsInStore g0)
    (h : loadNodes wasm g0 items = .ok g) : rootsInStore g := by
  induction items generalizing g0 with
  | nil =>
    simp only [loadNodes, Except.ok.injEq] at h
    subst h
    exact hg
  | cons r rest ih =>
    simp only [loadNodes, Except.bind, bind] at h
    cases h1 : loadOne wasm g0 r with
    | error e => simp [h1] at h
    | ok g1 =>
      simp only [h1] at h
      exact ih (loadOne_rootsInStore hg h1) h

theorem loadGraph_rootsInStore {wasm : WasmModule} {json : JValue}
    {g : MetaDCEGraph} (h : loadGraph wasm json = .ok g) : rootsInStore g := by
  unfold loadGraph at h
  cases json with
  | arr items =>
    refine loadNodes_rootsInStore ?_ h
    intro r hr
    simp at hr
  | null => simp at h
  | boolean b => simp at h
  | num n => simp at h
  | str s => simp at h
  | obj fields => simp at h

/-- Last-write-wins: after loading, a name looks up the node parsed from the
last record bearing that name, and names borne by no record keep the
original binding of the accumulator graph. -/
theorem loadNodes_lookup {wasm : WasmModule} {g0 g : MetaDCEGraph}
    {items : List JValue} (h : loadNodes wasm g0 items = .ok g)
    (nm : String) :
    match lastMatch items nm with
    | some r => ∃ nd, parseDCENode r = .ok nd ∧ mapFind g.nodes nm = some nd
    | none => mapFind g.nodes nm = mapFind g0.nodes nm := by
  induction items generalizing g0 with
  | nil =>
    simp only [loadNodes, Except.ok.injEq] at h
    subst h
    simp [lastMatch]
  | cons r rest ih =>
    simp only [loadNodes, Except.bind, bind] at h
    cases h1 : loadOne wasm g0 r with
    | error e => simp [h1] at h
    | ok g1 =>
      simp only [h1] at h
      obtain ⟨nd, hp, hnodes, _⟩ := loadOne_ok_spec h1
      have hname := parseDCENode_name hp
      have := ih h
      cases hlast : lastMatch rest nm with
      | some x =>
        simp only [lastMatch, hlast]
        simpa [hlast] using this
      | none =>
        simp only [hlast] at this
        by_cases heq : recordName r = nm
        · simp only [lastMatch, hlast, heq, if_true]
          refine ⟨nd, hp, ?_⟩
          rw [this, hnodes, hname, heq]
          exact mapFind_mapSet_self _ _ _
        · simp only [lastMatch, hlast, heq, if_false]
          rw [this, hnodes]
          exact mapFind_mapSet_ne _ _ _ _ (by rw [hname]; exact heq)

/-- Which names are roots after loading: exactly the accumulated roots plus
the names of records carrying a `root` field. -/
theorem loadNodes_roots_mem {wasm : WasmModule} {g0 g : MetaDCEGraph}
    {items : List JValue} (h : loadNodes wasm g0 items = .ok g)
    (nm : String) :
    nm ∈ g.roots ↔
      nm ∈ g0.roots ∨
        ∃ r ∈ items, recordName r = nm ∧ (jGetField r "root").isSome := by
  induction items generalizing g0 with
  | nil =>
    simp only [loadNodes, Except.ok.injEq] at h
    subst h
    simp
  | cons r rest ih =>
    simp only [loadNodes, Except.bind, bind] at h
    cases h1 : loadOne wasm g0 r with
    | error e => simp [h1] at h
    | ok g1 =>
      simp only [h1] at h
      obtain ⟨nd, hp, _, hroots⟩ := loadOne_ok_spec h1
      have hname := parseDCENode_name hp
      rw [ih h, hroots]
      cases hfield : jGetField r "root" with
      | none =>
        simp only [hfield, List.append_nil, List.mem_cons]
        constructor
        · rintro (h0 | ⟨x, hx, hnx, hrx⟩)
          · exact Or.inl h0
          · exact Or.inr ⟨x, Or.inr hx, hnx, hrx⟩
        · rintro (h0 | ⟨x, (rfl | hx), hnx, hrx⟩)
          · exact Or.inl h0
          · rw [hfield] at hrx
            simp at hrx
          · exact Or.inr ⟨x, hx, hnx, hrx⟩
      | some v =>
        simp only [hfield]
        constructor
        · intro hmem
          rcases hmem with hL | ⟨x, hx, hnx, hrx⟩
          · rcases List.mem_append.mp hL with h0 | hsing
            · exact Or.inl h0
            · have hnm : nm = nd.name := by simpa using hsing
              exact Or.inr ⟨r, List.mem_cons_self r rest,
                by rw [← hname, hnm], by simp [hfield]⟩
          · exact Or.inr ⟨x, List.mem_cons_of_mem r hx, hnx, hrx⟩
        · intro hmem
          rcases hmem with h0 | ⟨x, hx, hnx, hrx⟩
          · exact Or.inl (List.mem_append.mpr (Or.inl h0))
          · rcases List.mem_cons.mp hx with rfl | hx'
            · exact Or.inl (List.mem_append.mpr (Or.inr (by simp [hname, hnx])))
            · exact Or.inr ⟨x, hx', hnx, hrx⟩

/-! ## lastMatch lemmas -/

theorem lastMatch_none_iff {items : List JValue} {nm : String} :
    lastMatch items nm = none ↔ ∀ r ∈ items, recordName r ≠ nm := by
  induction items with
  | nil => simp [lastMatch]
  | cons r rest ih =>
    cases hlast : lastMatch rest nm with
    | some x =>
      simp only [lastMatch, hlast]
      constructor
      · intro h
        cases h
      · intro h
        exact absurd (ih.mpr (fun y hy => h y (List.mem_cons_of_mem r hy)))
          (by simp [hlast])
    | none =>
      simp only [lastMatch, hlast]
      by_cases heq : recordName r = nm
      · simp only [heq, if_true]
        constructor
        · intro h
          cases h
        · intro h
          exact absurd heq (h r (List.mem_cons_self r rest))
      · simp only [heq, if_false]
        constructor
        · intro _ y hy
          rcases List.mem_cons.mp hy with rfl | hy'
          · exact heq
          · exact ih.mp hlast y hy'
        · intro _
          trivial

theorem lastMatch_some_mem {items : List JValue} {nm : String} {r : JValue}
    (h : lastMatch items nm = some r) : r ∈ items ∧ recordName r = nm := by
  induction items with
  | nil => simp [lastMatch] at h
  | cons a rest ih =>
    cases hlast : lastMatch rest nm with
    | some x =>
      simp only [lastMatch, hlast, Option.some.injEq] at h
      subst h
      obtain ⟨hmem, hname⟩ := ih hlast
      exact ⟨List.mem_cons_of_mem a hmem, hname⟩
    | none =>
      simp only [lastMatch, hlast] at h
      by_cases heq : recordName a = nm
      · simp only [heq, if_true, Option.some.injEq] at h
        subst h
        exact ⟨List.mem_cons_self a rest, heq⟩
      · simp [heq] at h

theorem lastMatch_unique_of_nodup {items : List JValue} {nm : String}
    {r : JValue} (hnodup : (items.map recordName).Nodup)
    (hmem : r ∈ items) (hname : recordName r = nm) :
    lastMatch items nm = some r := by
  induction items with
  | nil => cases hmem
  | cons a rest ih =>
    simp only [List.map_cons, List.nodup_cons] at hnodup
    obtain ⟨hhead, htail⟩ := hnodup
    rcases List.mem_cons.mp hmem with rfl | hmem'
    · have hnone : lastMatch rest nm = none := by
        rw [lastMatch_none_iff]
        intro y hy hyn
        apply hhead
        rw [← hname] at hyn
        rw [← hyn]
        exact List.mem_map_of_mem recordName hy
      simp [lastMatch, hnone, hname]
    · have := ih htail hmem'
      simp [lastMatch, this]

theorem lastMatch_perm {l1 l2 : List JValue} {nm : String}
    (hperm : l1.Perm l2) (hnodup : (l1.map recordName).Nodup) :
    lastMatch l1 nm = lastMatch l2 nm := by
  have hnodup2 : (l2.map recordName).Nodup :=
    ((hperm.map recordName).nodup_iff).mp hnodup
  cases h1 : lastMatch l1 nm with
  | some r =>
    obtain ⟨hmem, hname⟩ := lastMatch_some_mem h1
    exact (lastMatch_unique_of_nodup hnodup2 (hperm.mem_iff.mp hmem)
      hname).symm
  | none =>
    cases h2 : lastMatch l2 nm with
    | none => rfl
    | some r =>
      obtain ⟨hmem, hname⟩ := lastMatch_some_mem h2
      exact absurd hname
        (lastMatch_none_iff.mp h1 r (hperm.mem_iff.mpr hmem))

/-! ## Correctness of the worklist traversal -/

theorem bfsWalk_cons_mem {g : MetaDCEGraph} {n : String}
    {rest visited : List String} (hvis : n ∈ visited) :
    bfsWalk g (n :: rest) visited = bfsWalk g rest visited := by
  rw [bfsWalk]
  simp [hvis]

theorem bfsWalk_cons_none {g : MetaDCEGraph} {n : String}
    {rest visited : List String} (hvis : n ∉ visited)
    (hfind : mapFind g.nodes n = none) :
    bfsWalk g (n :: rest) visited = bfsWalk g rest visited := by
  rw [bfsWalk, dif_neg hvis]
  split
  · rfl
  · rename_i nd heq
    rw [hfind] at heq
    cases heq

theorem bfsWalk_cons_some {g : MetaDCEGraph} {n : String} {nd : DCENode}
    {rest visited : List String} (hvis : n ∉ visited)
    (hfind : mapFind g.nodes n = some nd) :
    bfsWalk g (n :: rest) visited =
      bfsWalk g (rest ++ nd.reaches) (visited ++ [n]) := by
  rw [bfsWalk, dif_neg hvis]
  split
  · rename_i heq
    rw [hfind] at heq
    cases heq
  · rename_i nd' heq
    rw [hfind] at heq
    cases heq
    rfl

/-- The visited list only grows. -/
theorem bfsWalk_visited_sub (g : MetaDCEGraph) :
    ∀ (queue visited : List String), ∀ x ∈ visited,
      x ∈ bfsWalk g queue visited := by
  intro queue visited
  induction queue, visited using bfsWalk.induct g with
  | case1 visited =>
    intro x hx
    simpa [bfsWalk] using hx
  | case2 visited n rest hvis ih =>
    intro x hx
    rw [bfsWalk_cons_mem hvis]
    exact ih x hx
  | case3 visited n rest hvis hfind ih =>
    intro x hx
    rw [bfsWalk_cons_none hvis hfind]
    exact ih x hx
  | case4 visited n rest hvis nd hfind ih =>
    intro x hx
    rw [bfsWalk_cons_some hvis hfind]
    exact ih x (List.mem_append_left _ hx)

/-- Every queued name with a store entry ends up visited. -/
theorem bfsWalk_queue_mem (g : MetaDCEGraph) :
    ∀ (queue visited : List String), ∀ x ∈ queue,
      (mapFind g.nodes x).isSome → x ∈ bfsWalk g queue visited := by
  intro queue visited
  induction queue, visited using bfsWalk.induct g with
  | case1 visited =>
    intro x hx
    cases hx
  | case2 visited n rest hvis ih =>
    intro x hx hsome
    rw [bfsWalk_cons_mem hvis]
    rcases List.mem_cons.mp hx with rfl | hx'
    · exact bfsWalk_visited_sub g rest visited x hvis
    · exact ih x hx' hsome
  | case3 visited n rest hvis hfind ih =>
    intro x hx hsome
    rw [bfsWalk_cons_none hvis hfind]
    rcases List.mem_cons.mp hx with rfl | hx'
    · rw [hfind] at hsome
      cases hsome
    · exact ih x hx' hsome
  | case4 visited n rest hvis nd hfind ih =>
    intro x hx hsome
    rw [bfsWalk_cons_some hvis hfind]
    rcases List.mem_cons.mp hx with rfl | hx'
    · exact bfsWalk_visited_sub g _ _ x (List.mem_append_right _ (by simp))
    · exact ih x (List.mem_append_left _ hx') hsome

/-- The invariant of the traversal: all store-resident `reaches` targets of
visited nodes are already visited or still queued. -/
def bfsInv (g : MetaDCEGraph) (queue visited : List String) : Prop :=
  ∀ x ∈ visited, ∀ nd, mapFind g.nodes x = some nd →
    ∀ m ∈ nd.reaches, (mapFind g.nodes m).isSome →
      m ∈ visited ∨ m ∈ queue

/-- Under the invariant, the visited set returned by the traversal is closed
under store-resident `reaches` edges. -/
theorem bfsWalk_closed (g : MetaDCEGraph) :
    ∀ (queue visited : List String), bfsInv g queue visited →
      ∀ x ∈ bfsWalk g queue visited, ∀ nd, mapFind g.nodes x = some nd →
        ∀ m ∈ nd.reaches, (mapFind g.nodes m).isSome →
          m ∈ bfsWalk g queue visited := by
  intro queue visited
  induction queue, visited using bfsWalk.induct g with
  | case1 visited =>
    intro hinv x hx nd hnd m hm hsome
    rw [bfsWalk] at hx ⊢
    rcases hinv x hx nd hnd m hm hsome with h | h
    · exact h
    · cases h
  | case2 visited n rest hvis ih =>
    intro hinv x hx nd hnd m hm hsome
    rw [bfsWalk_cons_mem hvis] at hx ⊢
    refine ih ?_ x hx nd hnd m hm hsome
    intro y hy nd' hnd' m' hm' hsome'
    rcases hinv y hy nd' hnd' m' hm' hsome' with h | h
    · exact Or.inl h
    · rcases List.mem_cons.mp h with rfl | h'
      · exact Or.inl hvis
      · exact Or.inr h'
  | case3 visited n rest hvis hfind ih =>
    intro hinv x hx nd hnd m hm hsome
    rw [bfsWalk_cons_none hvis hfind] at hx ⊢
    refine ih ?_ x hx nd hnd m hm hsome
    intro y hy nd' hnd' m' hm' hsome'
    rcases hinv y hy nd' hnd' m' hm' hsome' with h | h
    · exact Or.inl h
    · rcases List.mem_cons.mp h with rfl | h'
      · rw [hfind] at hsome'
        cases hsome'
      · exact Or.inr h'
  | case4 visited n rest hvis nd0 hfind ih =>
    intro hinv x hx nd hnd m hm hsome
    rw [bfsWalk_cons_some hvis hfind] at hx ⊢
    refine ih ?_ x hx nd hnd m hm hsome
    intro y hy nd' hnd' m' hm' hsome'
    rcases List.mem_append.mp hy with hyv | hyn
    · rcases hinv y hyv nd' hnd' m' hm' hsome' with h | h
      · exact Or.inl (List.mem_append_left _ h)
      · rcases List.mem_cons.mp h with rfl | h'
        · exact Or.inl (List.mem_append_right _ (by simp))
        · exact Or.inr (List.mem_append_left _ h')
    · have hyeq : y = n := by simpa using hyn
      subst hyeq
      rw [hfind] at hnd'
      cases hnd'
      exact Or.inr (List.mem_append_right _ hm')

/-- Everything the traversal visits is in the reachability closure, given
that the initial visited and queue entries are. -/
theorem bfsWalk_sound (g : MetaDCEGraph) :
    ∀ (queue visited : List String),
      (∀ x ∈ visited, InReach g x) →
      (∀ x ∈ queue, (mapFind g.nodes x).isSome → InReach g x) →
      ∀ x ∈ bfsWalk g queue visited, InReach g x := by
  intro queue visited
  induction queue, visited using bfsWalk.induct g with
  | case1 visited =>
    intro hv _ x hx
    rw [bfsWalk] at hx
    exact hv x hx
  | case2 visited n rest hvis ih =>
    intro hv hq x hx
    rw [bfsWalk_cons_mem hvis] at hx
    exact ih hv (fun y hy => hq y (List.mem_cons_of_mem n hy)) x hx
  | case3 visited n rest hvis hfind ih =>
    intro hv hq x hx
    rw [bfsWalk_cons_none hvis hfind] at hx
    exact ih hv (fun y hy => hq y (List.mem_cons_of_mem n hy)) x hx
  | case4 visited n rest hvis nd hfind ih =>
    intro hv hq x hx
    rw [bfsWalk_cons_some hvis hfind] at hx
    have hn : InReach g n :=
      hq n (List.mem_cons_self n rest) (by simp [hfind])
    refine ih ?_ ?_ x hx
    · intro y hy
      rcases List.mem_append.mp hy with hyv | hyn
      · exact hv y hyv
      · have : y = n := by simpa using hyn
        subst this
        exact hn
    · intro y hy hsome
      rcases List.mem_append.mp hy with hyq | hyr
      · exact hq y (List.mem_cons_of_mem n hyq) hsome
      · exact InReach.step n y nd hn hfind hyr hsome

/-- The visited list never acquires a duplicate: each node is expanded at
most once. -/
theorem bfsWalk_nodup (g : MetaDCEGraph) :
    ∀ (queue visited : List String), visited.Nodup →
      (bfsWalk g queue visited).Nodup := by
  intro queue visited
  induction queue, visited using bfsWalk.induct g with
  | case1 visited =>
    intro h
    rw [bfsWalk]
    exact h
  | case2 visited n rest hvis ih =>
    intro h
    rw [bfsWalk_cons_mem hvis]
    exact ih h
  | case3 visited n rest hvis hfind ih =>
    intro h
    rw [bfsWalk_cons_none hvis hfind]
    exact ih h
  | case4 visited n rest hvis nd hfind ih =>
    intro h
    rw [bfsWalk_cons_some hvis hfind]
    refine ih ?_
    simp [List.nodup_append, h, hvis]

/-- Every name in the reachability closure is visited by the traversal. -/
theorem bfsWalk_complete {g : MetaDCEGraph} {n : String} (h : InReach g n) :
    n ∈ bfsWalk g g.roots [] := by
  induction h with
  | root n hroot hsome => exact bfsWalk_queue_mem g g.roots [] n hroot hsome
  | step n m nd _ hfind hm hsome ih =>
    exact bfsWalk_closed g g.roots [] (by intro x hx; cases hx) n ih nd
      hfind m hm hsome

/-- The Reachable Set computed by the engine is exactly the closure of the
roots under store-resident `reaches` edges. -/
theorem computeReachable_mem {g : MetaDCEGraph} {res : List String}
    (h : computeReachable g = .ok res) (n : String) :
    n ∈ res ↔ InReach g n := by
  unfold computeReachable at h
  by_cases hd : findDangling g
  · simp [hd] at h
  · simp only [hd, Bool.false_eq_true, if_false, Except.ok.injEq] at h
    subst h
    constructor
    · refine bfsWalk_sound g g.roots [] ?_ ?_ n
      · intro x hx
        cases hx
      · intro x hx hsome
        exact InReach.root x hx hsome
    · exact bfsWalk_complete

/-- The computed Reachable Set has no duplicates: each node is marked (and
expanded) at most once. -/
theorem computeReachable_nodup {g : MetaDCEGraph} {res : List String}
    (h : computeReachable g = .ok res) : res.Nodup := by
  unfold computeReachable at h
  by_cases hd : findDangling g
  · simp [hd] at h
  · simp only [hd, Bool.false_eq_true, if_false, Except.ok.injEq] at h
    subst h
    exact bfsWalk_nodup g g.roots [] List.nodup_nil

/-- The reachability closure depends only on the store as a lookup function
and on the root set as a membership predicate. -/
theorem InReach_congr {g1 g2 : MetaDCEGraph}
    (hn : ∀ nm, mapFind g1.nodes nm = mapFind g2.nodes nm)
    (hr : ∀ nm, nm ∈ g1.roots ↔ nm ∈ g2.roots) :
    ∀ n, InReach g1 n → InReach g2 n := by
  intro n h
  induction h with
  | root n hroot hsome =>
    refine InReach.root n ((hr n).mp hroot) ?_
    rw [← hn n]
    exact hsome
  | step n m nd _ hfind hm hsome ih =>
    refine InReach.step n m nd ih ?_ hm ?_
    · rw [← hn n]
      exact hfind
    · rw [← hn m]
      exact hsome

/-! ## Concrete fixtures -/

/-- The spec section 8 example graph description. -/
def jEx : JValue := .arr [
  .obj [("name", .str "e1"), ("reaches", .arr [.str "e2"]),
        ("root", .boolean true)],
  .obj [("name", .str "e2"), ("export", .str "myExport")],
  .obj [("name", .str "e3"), ("export", .str "unusedExport")]]

/-- The spec section 8 example module. -/
def mEx : WasmModule := ⟨["myExport", "unusedExport"], []⟩

/-- The graph the loader builds from `jEx`. -/
def gEx : MetaDCEGraph :=
  { nodes := [("e1", ⟨"e1", ["e2"]⟩), ("e2", ⟨"e2", []⟩), ("e3", ⟨"e3", []⟩)],
    roots := ["e1"],
    importToDCENode := [],
    exportToDCENode := [("myExport", "e2"), ("unusedExport", "e3")] }

/-- The Reachable Set of the example. -/
def reachEx : List String := ["e1", "e2"]

/-! ## C1 — root inclusion and closure of the Reachable Set -/

/-- C1: for every graph built by the loader on which the Reachability
Engine succeeds, the computed Reachable Set contains every root name, and
is closed under `reaches`: if `n` is in the set and `n.reaches` contains
`m` where `m` names a node of the store, then `m` is in the set. -/
theorem C1_reachable_roots_and_closure (wasm : WasmModule) (json : JValue)
    (g : MetaDCEGraph) (res : List String)
    (hload : loadGraph wasm json = .ok g)
    (hreach : computeReachable g = .ok res) :
    (∀ r ∈ g.roots, r ∈ res) ∧
    (∀ n ∈ res, ∀ nd, mapFind g.nodes n = some nd →
      ∀ m ∈ nd.reaches, (mapFind g.nodes m).isSome → m ∈ res) := by
  have hstore := loadGraph_rootsInStore hload
  constructor
  · intro r hr
    exact (computeReachable_mem hreach r).mpr (InReach.root r hr (hstore r hr))
  · intro n hn nd hnd m hm hsome
    exact (computeReachable_mem hreach m).mpr
      (InReach.step n m nd ((computeReachable_mem hreach n).mp hn) hnd hm
        hsome)

/-- C1 witness: the spec example satisfies both hypotheses and the theorem
places the root `e1` and the reached node `e2` in its Reachable Set. -/
theorem C1_witness :
    loadGraph mEx jEx = .ok gEx ∧ computeReachable gEx = .ok reachEx ∧
    "e1" ∈ reachEx ∧ "e2" ∈ reachEx := by
  have hload : loadGraph mEx jEx = .ok gEx := rfl
  have hreach : computeReachable gEx = .ok reachEx := by
    simp [computeReachable, findDangling, gEx, mapFind, bfsWalk, reachEx]
  refine ⟨hload, hreach, ?_, ?_⟩
  · exact (C1_reachable_roots_and_closure mEx jEx gEx reachEx hload hreach).1
      "e1" (by simp [gEx])
  · exact (C1_reachable_roots_and_closure mEx jEx gEx reachEx hload
      hreach).2 "e1"
      ((C1_reachable_roots_and_closure mEx jEx gEx reachEx hload hreach).1
        "e1" (by simp [gEx]))
      ⟨"e1", ["e2"]⟩ (by simp [gEx, mapFind]) "e2" (by simp)
      (by simp [gEx, mapFind])

/-! ## Which records the loader accepts -/

/-- The `name` field is present (line 180's check). -/
def nameFieldOk (ref : JValue) : Bool := (jGetField ref "name").isSome

/-- The `reaches` field, when present, is an array of strings
(lines 184-196). -/
def reachesFieldOk (ref : JValue) : Bool :=
  match jGetField ref "reaches" with
  | none => true
  | some (.arr items) => items.all JValue.isStr
  | some _ => false

/-- The `root` field, when present, is the boolean `true` (lines 198-204). -/
def rootFieldOk (ref : JValue) : Bool :=
  match jGetField ref "root" with
  | none => true
  | some v => v.isBoolean && v.getBool

/-- The `export` field, when present, is a string (lines 205-211). -/
def exportFieldOk (ref : JValue) : Bool :=
  match jGetField ref "export" with
  | none => true
  | some v => v.isStr

/-- The `import` field, when present, is a two-element string array that
resolves against the module's import table (lines 212-218). -/
def importFieldOk (wasm : WasmModule) (ref : JValue) : Bool :=
  match jGetField ref "import" with
  | none => true
  | some (.arr [.str m, .str b]) => (getImport wasm m b).isSome
  | some _ => false

/-- A record the loader rejects with a fatal error: not an object, missing
`name`, a `reaches` field that is not an array of strings, a `root` field
other than the boolean `true`, a non-string `export` field, an `import`
field that is not a two-element string array, or an `import` pair the
module cannot resolve. -/
def recordMalformed (wasm : WasmModule) (ref : JValue) : Bool :=
  !ref.isObj || !nameFieldOk ref || !reachesFieldOk ref ||
  !rootFieldOk ref || !exportFieldOk ref || !importFieldOk wasm ref

theorem parseReaches_isOk (items : List JValue) :
    (parseReaches items).isOk = items.all JValue.isStr := by
  induction items with
  | nil => rfl
  | cons i rest ih =>
    cases i with
    | str s =>
      simp only [parseReaches, List.all_cons]
      cases hp : parseReaches rest with
      | ok t =>
        rw [hp] at ih
        simp [bind, Except.bind, hp, Except.isOk, Except.toBool, ← ih,
          JValue.isStr]
      | error e =>
        rw [hp] at ih
        simp [bind, Except.bind, hp, Except.isOk, Except.toBool, ← ih,
          JValue.isStr]
    | null => simp [parseReaches, JValue.isStr, Except.isOk, Except.toBool]
    | boolean b =>
      simp [parseReaches, JValue.isStr, Except.isOk, Except.toBool]
    | num n => simp [parseReaches, JValue.isStr, Except.isOk, Except.toBool]
    | arr l => simp [parseReaches, JValue.isStr, Except.isOk, Except.toBool]
    | obj l => simp [parseReaches, JValue.isStr, Except.isOk, Except.toBool]

theorem parseDCENode_isOk (ref : JValue) :
    (parseDCENode ref).isOk =
      (ref.isObj && nameFieldOk ref && reachesFieldOk ref) := by
  cases ref with
  | obj fields =>
    simp only [parseDCENode, JValue.isObj, nameFieldOk, reachesFieldOk,
      jGetField, Bool.true_and]
    cases hnv : mapFind fields "name" with
    | none => simp [Except.isOk, Except.toBool]
    | some nv =>
      simp only [Option.isSome_some, Bool.true_and]
      cases hr : mapFind fields "reaches" with
      | none => simp [Except.isOk, Except.toBool]
      | some rv =>
        cases rv with
        | arr items =>
          cases hpr : parseReaches items with
          | ok rs =>
            have := parseReaches_isOk items
            rw [hpr] at this
            simp [bind, Except.bind, hpr, Except.isOk, Except.toBool, ← this]
          | error e =>
            have := parseReaches_isOk items
            rw [hpr] at this
            simp [bind, Except.bind, hpr, Except.isOk, Except.toBool, ← this]
        | null => simp [Except.isOk, Except.toBool]
        | boolean b => simp [Except.isOk, Except.toBool]
        | num n => simp [Except.isOk, Except.toBool]
        | str s => simp [Except.isOk, Except.toBool]
        | obj l => simp [Except.isOk, Except.toBool]
  | null => simp [parseDCENode, JValue.isObj, Except.isOk, Except.toBool]
  | boolean b => simp [parseDCENode, JValue.isObj, Except.isOk, Except.toBool]
  | num n => simp [parseDCENode, JValue.isObj, Except.isOk, Except.toBool]
  | str s => simp [parseDCENode, JValue.isObj, Except.isOk, Except.toBool]
  | arr l => simp [parseDCENode, JValue.isObj, Except.isOk, Except.toBool]

theorem applyRoot_isOk (g : MetaDCEGraph) (ref : JValue) (nd : DCENode) :
    (applyRoot g ref nd).isOk = rootFieldOk ref := by
  unfold applyRoot rootFieldOk
  cases hr : jGetField ref "root" with
  | none => simp [Except.isOk, Except.toBool]
  | some v =>
    cases hc : (v.isBoolean && v.getBool) <;>
      simp [hc, Except.isOk, Except.toBool]

theorem applyExportField_isOk (g : MetaDCEGraph) (ref : JValue)
    (nd : DCENode) : (applyExportField g ref nd).isOk = exportFieldOk ref := by
  unfold applyExportField exportFieldOk
  cases he : jGetField ref "export" with
  | none => simp [Except.isOk, Except.toBool]
  | some v =>
    cases v with
    | str s => simp [Except.isOk, Except.toBool, JValue.isStr]
    | null => simp [Except.isOk, Except.toBool, JValue.isStr]
    | boolean b => simp [Except.isOk, Except.toBool, JValue.isStr]
    | num n => simp [Except.isOk, Except.toBool, JValue.isStr]
    | arr l => simp [Except.isOk, Except.toBool, JValue.isStr]
    | obj l => simp [Except.isOk, Except.toBool, JValue.isStr]

theorem applyImportField_isOk (wasm : WasmModule) (g : MetaDCEGraph)
    (ref : JValue) (nd : DCENode) :
    (applyImportField wasm g ref nd).isOk = importFieldOk wasm ref := by
  unfold applyImportField importFieldOk
  cases hi : jGetField ref "import" with
  | none => simp [Except.isOk, Except.toBool]
  | some v =>
    cases v with
    | arr l =>
      match l with
      | [] => simp [Except.isOk, Except.toBool]
      | [x] => cases x <;> simp [Except.isOk, Except.toBool]
      | [x, y] =>
        cases x with
        | str m =>
          cases y with
          | str b =>
            cases hg : getImport wasm m b with
            | none => simp [hg, Except.isOk, Except.toBool]
            | some id => simp [hg, Except.isOk, Except.toBool]
          | null => simp [Except.isOk, Except.toBool]
          | boolean bb => simp [Except.isOk, Except.toBool]
          | num nn => simp [Except.isOk, Except.toBool]
          | arr ll => simp [Except.isOk, Except.toBool]
          | obj ll => simp [Except.isOk, Except.toBool]
        | null => simp [Except.isOk, Except.toBool]
        | boolean bb => simp [Except.isOk, Except.toBool]
        | num nn => simp [Except.isOk, Except.toBool]
        | arr ll => simp [Except.isOk, Except.toBool]
        | obj ll => simp [Except.isOk, Except.toBool]
      | x :: y :: z :: t => simp [Except.isOk, Except.toBool]
    | null => simp [Except.isOk, Except.toBool]
    | boolean b => simp [Except.isOk, Except.toBool]
    | num n => simp [Except.isOk, Except.toBool]
    | str s => simp [Except.isOk, Except.toBool]
    | obj l => simp [Except.isOk, Except.toBool]

/-- A loader iteration succeeds exactly on records that are not malformed;
in particular success does not depend on the accumulated graph. -/
theorem loadOne_isOk (wasm : WasmModule) (g : MetaDCEGraph) (ref : JValue) :
    (loadOne wasm g ref).isOk = !recordMalformed wasm ref := by
  have hmal : (!recordMalformed wasm ref) =
      (ref.isObj && nameFieldOk ref && reachesFieldOk ref && rootFieldOk ref
        && exportFieldOk ref && importFieldOk wasm ref) := by
    unfold recordMalformed
    cases ref.isObj <;> cases nameFieldOk ref <;> cases reachesFieldOk ref <;>
      cases rootFieldOk ref <;> cases exportFieldOk ref <;>
      cases importFieldOk wasm ref <;> rfl
  rw [hmal]
  unfold loadOne
  simp only [bind, Except.bind]
  cases hp : parseDCENode ref with
  | error e =>
    have hp0 : (ref.isObj && nameFieldOk ref && reachesFieldOk ref) = false := by
      have := parseDCENode_isOk ref
      rw [hp] at this
      simpa [Except.isOk, Except.toBool] using this.symm
    simp [Except.isOk, Except.toBool, hp0]
  | ok nd =>
    have hp1 : (ref.isObj && nameFieldOk ref && reachesFieldOk ref) = true := by
      have := parseDCENode_isOk ref
      rw [hp] at this
      simpa [Except.isOk, Except.toBool] using this.symm
    cases h1 : applyRoot g ref nd with
    | error e =>
      have hr0 : rootFieldOk ref = false := by
        have := applyRoot_isOk g ref nd
        rw [h1] at this
        simpa [Except.isOk, Except.toBool] using this.symm
      simp [Except.isOk, Except.toBool, hp1, hr0, h1]
    | ok g1 =>
      have hr1 : rootFieldOk ref = true := by
        have := applyRoot_isOk g ref nd
        rw [h1] at this
        simpa [Except.isOk, Except.toBool] using this.symm
      cases h2 : applyExportField g1 ref nd with
      | error e =>
        have he0 : exportFieldOk ref = false := by
          have := applyExportField_isOk g1 ref nd
          rw [h2] at this
          simpa [Except.isOk, Except.toBool] using this.symm
        simp [Except.isOk, Except.toBool, hp1, hr1, he0, h1, h2]
      | ok g2 =>
        have he1 : exportFieldOk ref = true := by
          have := applyExportField_isOk g1 ref nd
          rw [h2] at this
          simpa [Except.isOk, Except.toBool] using this.symm
        cases h3 : applyImportField wasm g2 ref nd with
        | error e =>
          have hi0 : importFieldOk wasm ref = false := by
            have := applyImportField_isOk wasm g2 ref nd
            rw [h3] at this
            simpa [Except.isOk, Except.toBool] using this.symm
          simp [Except.isOk, Except.toBool, hp1, hr1, he1, hi0, h1, h2, h3]
        | ok g3 =>
          have hi1 : importFieldOk wasm ref = true := by
            have := applyImportField_isOk wasm g2 ref nd
            rw [h3] at this
            simpa [Except.isOk, Except.toBool] using this.symm
          simp [Except.isOk, Except.toBool, hp1, hr1, he1, hi1, h1, h2, h3]

/-- A successful loader iteration with an `export` field records the node's
name under the export symbol. -/
theorem loadOne_ok_exports {wasm : WasmModule} {g g' : MetaDCEGraph}
    {ref : JValue} {s : String}
    (h : loadOne wasm g ref = .ok g')
    (hfield : jGetField ref "export" = some (.str s)) :
    g'.exportToDCENode = mapSet g.exportToDCENode s (recordName ref) := by
  unfold loadOne at h
  cases hp : parseDCENode ref with
  | error e => simp [hp, Except.bind, bind] at h
  | ok nd =>
    simp only [hp, Except.bind, bind] at h
    cases h1 : applyRoot g ref nd with
    | error e => simp [h1] at h
    | ok g1 =>
      simp only [h1] at h
      cases h2 : applyExportField g1 ref nd with
      | error e => simp [h2] at h
      | ok g2 =>
        simp only [h2] at h
        cases h3 : applyImportField wasm g2 ref nd with
        | error e => simp [h3] at h
        | ok g3 =>
          simp only [h3, Except.ok.injEq] at h
          subst h
          obtain ⟨_, he1, _, _⟩ := applyRoot_ok h1
          obtain ⟨_, _, _, he2⟩ := applyExportField_ok h2
          obtain ⟨_, _, he3⟩ := applyImportField_ok h3
          rw [hfield] at he2
          simp only []
          rw [he3, he2, he1, parseDCENode_name hp]

/-! ## C4 — export linkage is registered without verification (corrected) -/

/-- A module with no exports and no imports. -/
def mNoExp : WasmModule := ⟨[], []⟩

/-- A record declaring export linkage to symbol `foo`. -/
def rXFoo : JValue := .arr [.obj [("name", .str "a"), ("export", .str "foo")]]

/-- The graph loaded from `rXFoo`. -/
def gXFoo : MetaDCEGraph :=
  { nodes := [("a", ⟨"a", []⟩)], roots := [],
    importToDCENode := [], exportToDCENode := [("foo", "a")] }

/-- C4 counterexample: the module exports nothing, yet loading a record
declaring export `foo` succeeds — no `UnresolvedExport` failure — and the
linkage `exportToDCENode[foo] = a` is registered anyway, contradicting the
claim that the run fails rather than registering. -/
theorem C4_counterexample :
    "foo" ∉ mNoExp.moduleExports ∧
    loadGraph mNoExp rXFoo = .ok gXFoo ∧
    mapFind gXFoo.exportToDCENode "foo" = some "a" :=
  ⟨by simp [mNoExp], rfl, rfl⟩

/-- C4 amended: for every node carrying an export field, the loader
registers `exportToDCENode[exportName] = node.name` without consulting the
module's export table: the outcome of a loader iteration is unchanged by
any change to the module's export table, so no `UnresolvedExport` error can
arise from it. -/
theorem C4_amended_export_not_verified (wasm : WasmModule)
    (g g' : MetaDCEGraph) (ref : JValue) (s : String)
    (hload : loadOne wasm g ref = .ok g')
    (hfield : jGetField ref "export" = some (.str s)) :
    mapFind g'.exportToDCENode s = some (recordName ref) ∧
    (∀ (e1 e2 : List String) (imps : List WasmImport) (h : MetaDCEGraph)
      (r : JValue), loadOne ⟨e1, imps⟩ h r = loadOne ⟨e2, imps⟩ h r) := by
  constructor
  · rw [loadOne_ok_exports hload hfield]
    exact mapFind_mapSet_self _ _ _
  · intro e1 e2 imps h r
    rfl

/-- C4 witness: the counterexample module and record satisfy the amended
theorem's hypotheses, and indeed `foo` is bound to node `a`. -/
theorem C4_witness :
    mapFind gXFoo.exportToDCENode "foo" =
      some (recordName (.obj [("name", .str "a"), ("export", .str "foo")])) :=
  (C4_amended_export_not_verified mNoExp { } gXFoo
    (.obj [("name", .str "a"), ("export", .str "foo")]) "foo" rfl rfl).1

/-! ## C5 — import linkage resolution through the module -/

/-- A module with a single import `(env, f)` whose internal name is
`fInternal`. -/
def mImp : WasmModule := ⟨[], [⟨"env", "f", "fInternal"⟩]⟩

/-- A record declaring import linkage to `(env, f)`. -/
def rImp : JValue :=
  .obj [("name", .str "n1"), ("import", .arr [.str "env", .str "f"])]

/-- C5: a node with an import pair `(m, b)` is bound through the module's
internal identifier: when `getImport` resolves, `importToDCENode[id] =
node.name` is registered; when the module has no such import, the step
fails with `UnresolvedImport` and the whole loader iteration cannot
succeed. -/
theorem C5_import_resolution (wasm : WasmModule) (g : MetaDCEGraph)
    (ref : JValue) (m b : String)
    (hfield : jGetField ref "import" = some (.arr [.str m, .str b])) :
    (∀ nd id, getImport wasm m b = some id →
      applyImportField wasm g ref nd =
        .ok { g with importToDCENode := mapSet g.importToDCENode id nd.name }) ∧
    (∀ nd, getImport wasm m b = none →
      applyImportField wasm g ref nd = .error .UnresolvedImport) ∧
    (getImport wasm m b = none → ∀ g', loadOne wasm g ref ≠ .ok g') := by
  refine ⟨?_, ?_, ?_⟩
  · intro nd id hg
    unfold applyImportField
    rw [hfield]
    simp [hg]
  · intro nd hg
    unfold applyImportField
    rw [hfield]
    simp [hg]
  · intro hg g' hok
    have hisok := loadOne_isOk wasm g ref
    rw [hok] at hisok
    have hmal : recordMalformed wasm ref = false := by
      cases hm : recordMalformed wasm ref
      · rfl
      · rw [hm] at hisok
        simp [Except.isOk, Except.toBool] at hisok
    have himp : importFieldOk wasm ref = true := by
      unfold recordMalformed at hmal
      simp only [Bool.or_eq_false_iff, Bool.not_eq_false'] at hmal
      exact hmal.2
    unfold importFieldOk at himp
    rw [hfield] at himp
    simp [hg] at himp

/-- C5 witness: `(env, f)` resolves to `fInternal` and is registered for a
module carrying that import; against a module with no imports the step
fails with `UnresolvedImport` and the iteration cannot succeed. -/
theorem C5_witness :
    applyImportField mImp { } rImp ⟨"n1", []⟩ =
      .ok { importToDCENode := [("fInternal", "n1")] } ∧
    applyImportField mNoExp { } rImp ⟨"n1", []⟩ =
      .error .UnresolvedImport ∧
    loadOne mNoExp { } rImp ≠
      .ok { nodes := [("n1", ⟨"n1", []⟩)] } :=
  ⟨(C5_import_resolution mImp { } rImp "env" "f" rfl).1 ⟨"n1", []⟩
      "fInternal" rfl,
   (C5_import_resolution mNoExp { } rImp "env" "f" rfl).2.1 ⟨"n1", []⟩ rfl,
   (C5_import_resolution mNoExp { } rImp "env" "f" rfl).2.2 rfl _⟩

/-! ## C6 — which inputs the loader rejects -/

/-- Following the claim's wording (spec section 4.2's failure list), for
comparison with the code: a record is malformed when it is not an object,
misses `name`, has a non-string item inside `reaches`, has a `root` field
other than the boolean `true`, a non-string `export` field, or an `import`
field that is not a two-element string array.  (Note: no clause for a
`reaches` field that is not an array, and none for an unresolvable
import.) -/
def specRecordMalformed (ref : JValue) : Bool :=
  !ref.isObj || !(jGetField ref "name").isSome ||
  (match jGetField ref "reaches" with
   | some (.arr items) => !(items.all JValue.isStr)
   | _ => false) ||
  (match jGetField ref "root" with
   | none => false
   | some v => !(v.isBoolean && v.getBool)) ||
  (match jGetField ref "export" with
   | none => false
   | some v => !v.isStr) ||
  (match jGetField ref "import" with
   | none => false
   | some (.arr [.str _, .str _]) => false
   | some _ => true)

/-- A record whose `reaches` field is the number 5 — not an array, but with
no non-string item "inside" it. -/
def rBadReaches : JValue := .obj [("name", .str "a"), ("reaches", .num 5)]

/-- C6 counterexample: the record `{name: "a", reaches: 5}` matches none of
the claim's malformation conditions, yet the loader aborts on it
(`node.reaches must be an array`, source line 187). -/
theorem C6_counterexample :
    specRecordMalformed rBadReaches = false ∧
    loadOne mNoExp { } rBadReaches = .error .ReachesNotArray :=
  ⟨rfl, rfl⟩

/-- C6 amended: the loader aborts on a non-array top-level input, and a
record is accepted exactly when it is an object carrying `name`, whose
`reaches` field (if any) is an array of strings, whose `root` field (if
any) is the boolean `true`, whose `export` field (if any) is a string, and
whose `import` field (if any) is a two-element string array that resolves
against the module's import table. -/
theorem C6_amended_loader_failures (wasm : WasmModule) (g : MetaDCEGraph)
    (json ref : JValue) :
    (json.isArr = false → loadGraph wasm json = .error .InputNotArray) ∧
    ((loadOne wasm g ref).isOk = true ↔ recordMalformed wasm ref = false) := by
  constructor
  · intro hj
    cases json with
    | arr items => simp [JValue.isArr] at hj
    | null => rfl
    | boolean b => rfl
    | num n => rfl
    | str s => rfl
    | obj fields => rfl
  · rw [loadOne_isOk]
    cases recordMalformed wasm ref <;> simp

/-- C6 witness: the number `5` as top-level input is rejected, a
well-formed record is accepted, and the counterexample record is
rejected. -/
theorem C6_witness :
    loadGraph mNoExp (.num 5) = .error .InputNotArray ∧
    (loadOne mNoExp { } (.obj [("name", .str "a")])).isOk = true ∧
    (loadOne mNoExp { } rBadReaches).isOk = false := by
  refine ⟨?_, ?_, ?_⟩
  · exact (C6_amended_loader_failures mNoExp { } (.num 5) (.num 5)).1 rfl
  · exact (C6_amended_loader_failures mNoExp { } (.num 5)
      (.obj [("name", .str "a")])).2.mpr rfl
  · have := (C6_amended_loader_failures mNoExp { } (.num 5) rBadReaches).2
    cases hv : (loadOne mNoExp { } rBadReaches).isOk
    · rfl
    · have hmal := this.mp hv
      have : recordMalformed mNoExp rBadReaches = true := rfl
      rw [this] at hmal
      cases hmal

/-! ## C7 — duplicate names: last write wins -/

/-- First record named `a`, reaching `b`. -/
def rDupA1 : JValue :=
  .obj [("name", .str "a"), ("reaches", .arr [.str "b"])]

/-- A record named `b`. -/
def rDupB : JValue := .obj [("name", .str "b")]

/-- Second record named `a`, with no edges. -/
def rDupA2 : JValue := .obj [("name", .str "a")]

/-- The graph after loading `[rDupA1, rDupB, rDupA2]`: the second `a`
record's node replaced the first. -/
def gDup : MetaDCEGraph :=
  { nodes := [("a", ⟨"a", []⟩), ("b", ⟨"b", []⟩)], roots := [],
    importToDCENode := [], exportToDCENode := [] }

/-- C7: loading a duplicate name is not an error; after a successful load
each name resolves to the node parsed from the last record bearing it, and
names borne by no record resolve to nothing. -/
theorem C7_last_write_wins (wasm : WasmModule) (items : List JValue)
    (g : MetaDCEGraph) (hload : loadGraph wasm (.arr items) = .ok g)
    (nm : String) :
    (lastMatch items nm = none → mapFind g.nodes nm = none) ∧
    (∀ r, lastMatch items nm = some r →
      ∃ nd, parseDCENode r = .ok nd ∧ mapFind g.nodes nm = some nd) := by
  unfold loadGraph at hload
  have hchar := loadNodes_lookup hload nm
  constructor
  · intro hnone
    rw [hnone] at hchar
    simpa [mapFind] using hchar
  · intro r hr
    rw [hr] at hchar
    exact hchar

/-- C7 witness: loading two records named `a` (the first with an edge, the
second without) succeeds, and `a` resolves to the second record's node,
with an empty `reaches` list. -/
theorem C7_witness :
    loadGraph mNoExp (.arr [rDupA1, rDupB, rDupA2]) = .ok gDup ∧
    lastMatch [rDupA1, rDupB, rDupA2] "a" = some rDupA2 ∧
    mapFind gDup.nodes "a" = some ⟨"a", []⟩ := by
  have hload : loadGraph mNoExp (.arr [rDupA1, rDupB, rDupA2]) = .ok gDup :=
    rfl
  have hlast : lastMatch [rDupA1, rDupB, rDupA2] "a" = some rDupA2 := rfl
  refine ⟨hload, hlast, ?_⟩
  obtain ⟨nd, hp, hfind⟩ :=
    (C7_last_write_wins mNoExp [rDupA1, rDupB, rDupA2] gDup hload "a").2
      rDupA2 hlast
  have h2 : parseDCENode rDupA2 = .ok ⟨"a", []⟩ := rfl
  rw [hp] at h2
  injection h2 with h3
  rw [h3] at hfind
  exact hfind

/-! ## C10 — every root name has a node in the store -/

/-- C10: after a successful load every root name resolves in the node
store, and a name is a root exactly when some input record bearing that
name carried a `root` field — the registration and the insertion happen in
the same iteration. -/
theorem C10_roots_in_store (wasm : WasmModule) (items : List JValue)
    (g : MetaDCEGraph) (hload : loadGraph wasm (.arr items) = .ok g) :
    (∀ r ∈ g.roots, (mapFind g.nodes r).isSome = true) ∧
    (∀ nm, nm ∈ g.roots ↔
      ∃ r ∈ items, recordName r = nm ∧ (jGetField r "root").isSome) := by
  constructor
  · exact loadGraph_rootsInStore hload
  · intro nm
    unfold loadGraph at hload
    have := loadNodes_roots_mem hload nm
    simpa using this

/-- C10 witness: in the spec example the root `e1` resolves in the store. -/
theorem C10_witness : (mapFind gEx.nodes "e1").isSome = true :=
  (C10_roots_in_store mEx
    [.obj [("name", .str "e1"), ("reaches", .arr [.str "e2"]),
           ("root", .boolean true)],
     .obj [("name", .str "e2"), ("export", .str "myExport")],
     .obj [("name", .str "e3"), ("export", .str "unusedExport")]]
    gEx rfl).1 "e1" (by simp [gEx])

/-! ## C8 — cycle safety -/

/-- A two-node cycle with `A` as root. -/
def jCyc : JValue := .arr [
  .obj [("name", .str "A"), ("root", .boolean true),
        ("reaches", .arr [.str "B"])],
  .obj [("name", .str "B"), ("reaches", .arr [.str "A"])]]

/-- The graph of the cycle example. -/
def gCyc : MetaDCEGraph :=
  { nodes := [("A", ⟨"A", ["B"]⟩), ("B", ⟨"B", ["A"]⟩)], roots := ["A"],
    importToDCENode := [], exportToDCENode := [] }

/-- C8: every Reachable Set the engine produces is duplicate-free (each
node expanded at most once), and on the cyclic graph `A ⭢ B ⭢ A` with root
`A` the traversal terminates with Reachable Set exactly `[A, B]`, each
marked exactly once. -/
theorem C8_cycle_safety (g : MetaDCEGraph) (res : List String)
    (hreach : computeReachable g = .ok res) :
    res.Nodup ∧
    (loadGraph mNoExp jCyc = .ok gCyc ∧
     computeReachable gCyc = .ok ["A", "B"] ∧
     List.count "A" ["A", "B"] = 1 ∧ List.count "B" ["A", "B"] = 1) := by
  refine ⟨computeReachable_nodup hreach, rfl, ?_, by decide, by decide⟩
  simp [computeReachable, findDangling, gCyc, mapFind, bfsWalk]

/-- C8 witness: the cyclic example's Reachable Set is `[A, B]` and has no
duplicates. -/
theorem C8_witness :
    computeReachable gCyc = .ok ["A", "B"] ∧
    (["A", "B"] : List String).Nodup := by
  have hreach : computeReachable gCyc = .ok ["A", "B"] := by
    simp [computeReachable, findDangling, gCyc, mapFind, bfsWalk]
  exact ⟨hreach, (C8_cycle_safety gCyc ["A", "B"] hreach).1⟩

/-! ## C3 — dangling references are fatal, the module is untouched -/

/-- C3: any loaded graph with a `reaches` target that names no node makes
the Reachability Engine fail with `DanglingReference` before traversal
completes, and the whole run fails without producing a pruned module. -/
theorem C3_dangling_reference (wasm : WasmModule) (json : JValue)
    (g : MetaDCEGraph) (x : String × DCENode) (m : String)
    (hload : loadGraph wasm json = .ok g)
    (hx : x ∈ g.nodes) (hm : m ∈ x.2.reaches)
    (hnone : mapFind g.nodes m = none) :
    computeReachable g = .error .DanglingReference ∧
    metadce wasm json = .error .DanglingReference := by
  have hd : findDangling g = true := by
    unfold findDangling
    rw [List.any_eq_true]
    refine ⟨x, hx, ?_⟩
    rw [List.any_eq_true]
    exact ⟨m, hm, by simp [hnone]⟩
  have hcr : computeReachable g = .error .DanglingReference := by
    simp [computeReachable, hd]
  exact ⟨hcr, by simp [metadce, hload, bind, Except.bind, hcr]⟩

/-- A graph description whose only node reaches the undefined name `zz`. -/
def jDang : JValue := .arr [
  .obj [("name", .str "a"), ("root", .boolean true),
        ("reaches", .arr [.str "zz"])]]

/-- The graph loaded from `jDang`. -/
def gDang : MetaDCEGraph :=
  { nodes := [("a", ⟨"a", ["zz"]⟩)], roots := ["a"],
    importToDCENode := [], exportToDCENode := [] }

/-- C3 witness: the dangling example loads, and the run fails with
`DanglingReference` without producing a module. -/
theorem C3_witness :
    loadGraph mNoExp jDang = .ok gDang ∧
    metadce mNoExp jDang = .error .DanglingReference := by
  have hload : loadGraph mNoExp jDang = .ok gDang := rfl
  exact ⟨hload,
    (C3_dangling_reference mNoExp jDang gDang ("a", ⟨"a", ["zz"]⟩) "zz"
      hload (by simp [gDang]) (by simp) rfl).2⟩

/-! ## C2 — removable exports (corrected) -/

/-- Membership in `removableExports`: exactly the export symbols bound in
the linkage table to a node name outside the Reachable Set. -/
theorem removableExports_mem (g : MetaDCEGraph) (res : List String)
    (sym : String) :
    sym ∈ removableExports g res ↔
      ∃ nd, mapFind g.exportToDCENode sym = some nd ∧ nd ∉ res := by
  unfold removableExports
  rw [List.mem_filter]
  constructor
  · rintro ⟨hmem, hpred⟩
    cases hf : mapFind g.exportToDCENode sym with
    | none =>
      rw [hf] at hpred
      cases hpred
    | some nd =>
      rw [hf] at hpred
      simp only [decide_eq_true_eq] at hpred
      exact ⟨nd, rfl, hpred⟩
  · rintro ⟨nd, hf, hnot⟩
    refine ⟨mapFind_some_mem_keys hf, ?_⟩
    rw [hf]
    simpa using hnot

/-- The foo/bar module: it exports `foo` and `bar`. -/
def mFB : WasmModule := ⟨["foo", "bar"], []⟩

/-- The foo/bar graph description: root `a` reaches `b`; `b` is bound to
export `foo`; no node is bound to `bar`. -/
def jFB : JValue := .arr [
  .obj [("name", .str "a"), ("root", .boolean true),
        ("reaches", .arr [.str "b"])],
  .obj [("name", .str "b"), ("export", .str "foo")]]

/-- The graph loaded from `jFB`. -/
def gFB : MetaDCEGraph :=
  { nodes := [("a", ⟨"a", ["b"]⟩), ("b", ⟨"b", []⟩)], roots := ["a"],
    importToDCENode := [], exportToDCENode := [("foo", "b")] }

/-- C2 counterexample: in the foo/bar scenario the whole `removableExports`
is empty — `bar`, having no bound node, is *not* listed, and pruning keeps
both `foo` and `bar` in the export table — contradicting the claim's
scenario (`bar` listed and pruned away). -/
theorem C2_counterexample :
    loadGraph mFB jFB = .ok gFB ∧
    computeReachable gFB = .ok ["a", "b"] ∧
    removableExports gFB ["a", "b"] = [] ∧
    "bar" ∉ removableExports gFB ["a", "b"] ∧
    (pruneModule mFB gFB ["a", "b"]).moduleExports = ["foo", "bar"] := by
  refine ⟨rfl, ?_, rfl, by simp [removableExports, mapFind], ?_⟩
  · simp [computeReachable, findDangling, gFB, mapFind, bfsWalk]
  · rfl

/-- C2 amended: `removableExports` is exactly the module export symbols in
`exportToDCENode` whose bound node name is absent from the Reachable Set;
consequently, in the foo/bar scenario — `foo` bound to a reachable node,
no node bound to `bar` — neither `foo` nor `bar` is listed, and after
pruning the module's export table still contains both `foo` and `bar`. -/
theorem C2_removable_exports (g : MetaDCEGraph) (res : List String)
    (sym : String) (g' : MetaDCEGraph) (res' : List String)
    (hload : loadGraph mFB jFB = .ok g')
    (hreach : computeReachable g' = .ok res') :
    (sym ∈ removableExports g res ↔
      ∃ nd, mapFind g.exportToDCENode sym = some nd ∧ nd ∉ res) ∧
    ("foo" ∉ removableExports g' res' ∧
     "bar" ∉ removableExports g' res' ∧
     (pruneModule mFB g' res').moduleExports = ["foo", "bar"]) := by
  have hg' : g' = gFB := by
    have h0 : loadGraph mFB jFB = .ok gFB := rfl
    rw [h0] at hload
    injection hload with h
    exact h.symm
  subst hg'
  have hres' : res' = ["a", "b"] := by
    have h0 : computeReachable gFB = .ok ["a", "b"] := by
      simp [computeReachable, findDangling, gFB, mapFind, bfsWalk]
    rw [h0] at hreach
    injection hreach with h
    exact h.symm
  subst hres'
  refine ⟨removableExports_mem g res sym, ?_, ?_, rfl⟩
  · simp [removableExports, mapFind, gFB]
  · simp [removableExports, mapFind, gFB]

/-- C2 witness: the scenario satisfies the hypotheses, and the amended
conclusions hold on it. -/
theorem C2_witness :
    "foo" ∉ removableExports gFB ["a", "b"] ∧
    "bar" ∉ removableExports gFB ["a", "b"] ∧
    (pruneModule mFB gFB ["a", "b"]).moduleExports = ["foo", "bar"] :=
  (C2_removable_exports gFB ["a", "b"] "foo" gFB ["a", "b"] rfl
    (by simp [computeReachable, findDangling, gFB, mapFind, bfsWalk])).2

/-! ## C9 — record order (corrected) -/

/-- Root record named `a` reaching `b`. -/
def rPA1 : JValue :=
  .obj [("name", .str "a"), ("root", .boolean true),
        ("reaches", .arr [.str "b"])]

/-- Root record named `a` with no edges (a duplicate name). -/
def rPA2 : JValue := .obj [("name", .str "a"), ("root", .boolean true)]

/-- Record named `b`. -/
def rPB : JValue := .obj [("name", .str "b")]

/-- The graph loaded from `[rPA1, rPA2, rPB]`: the duplicate `a` without
edges wins. -/
def gP1 : MetaDCEGraph :=
  { nodes := [("a", ⟨"a", []⟩), ("b", ⟨"b", []⟩)], roots := ["a", "a"],
    importToDCENode := [], exportToDCENode := [] }

/-- The graph loaded from `[rPA2, rPA1, rPB]`: the duplicate `a` *with* the
edge wins. -/
def gP2 : MetaDCEGraph :=
  { nodes := [("a", ⟨"a", ["b"]⟩), ("b", ⟨"b", []⟩)], roots := ["a", "a"],
    importToDCENode := [], exportToDCENode := [] }

/-- C9 counterexample: two permutations of the same records (two records
share the name `a`); under last-write-wins the surviving `a` node differs,
and the two Reachable Sets differ — `b` is reachable in one order and not
in the other. -/
theorem C9_counterexample :
    List.Perm [rPA1, rPA2, rPB] [rPA2, rPA1, rPB] ∧
    loadGraph mNoExp (.arr [rPA1, rPA2, rPB]) = .ok gP1 ∧
    loadGraph mNoExp (.arr [rPA2, rPA1, rPB]) = .ok gP2 ∧
    computeReachable gP1 = .ok ["a"] ∧
    computeReachable gP2 = .ok ["a", "b"] ∧
    "b" ∉ (["a"] : List String) ∧ "b" ∈ (["a", "b"] : List String) := by
  refine ⟨List.Perm.swap rPA2 rPA1 [rPB], rfl, rfl, ?_, ?_, by simp, by simp⟩
  · simp [computeReachable, findDangling, gP1, mapFind, bfsWalk]
  · simp [computeReachable, findDangling, gP2, mapFind, bfsWalk]

/-- C9 amended: when the records' names are pairwise distinct, permuting
the input records yields the same Reachable Set (as a set of names). -/
theorem C9_order_independence (wasm : WasmModule) (l1 l2 : List JValue)
    (g1 g2 : MetaDCEGraph) (res1 res2 : List String)
    (hn : (l1.map recordName).Nodup) (hperm : l1.Perm l2)
    (h1 : loadGraph wasm (.arr l1) = .ok g1)
    (h2 : loadGraph wasm (.arr l2) = .ok g2)
    (hr1 : computeReachable g1 = .ok res1)
    (hr2 : computeReachable g2 = .ok res2) :
    ∀ n, n ∈ res1 ↔ n ∈ res2 := by
  unfold loadGraph at h1 h2
  have hng : ∀ nm, mapFind g1.nodes nm = mapFind g2.nodes nm := by
    intro nm
    have c1 := loadNodes_lookup h1 nm
    have c2 := loadNodes_lookup h2 nm
    have hlm : lastMatch l1 nm = lastMatch l2 nm := lastMatch_perm hperm hn
    cases hcase : lastMatch l1 nm with
    | none =>
      rw [hcase] at c1
      rw [← hlm, hcase] at c2
      rw [c1, c2]
    | some r =>
      rw [hcase] at c1
      rw [← hlm, hcase] at c2
      obtain ⟨nd1, hp1, hf1⟩ := c1
      obtain ⟨nd2, hp2, hf2⟩ := c2
      rw [hp1] at hp2
      injection hp2 with hnd
      rw [hf1, hf2, hnd]
  have hrg : ∀ nm, nm ∈ g1.roots ↔ nm ∈ g2.roots := by
    intro nm
    rw [loadNodes_roots_mem h1 nm, loadNodes_roots_mem h2 nm]
    simp only [List.not_mem_nil, false_or]
    constructor
    · rintro ⟨r, hr, hname, hroot⟩
      exact ⟨r, hperm.mem_iff.mp hr, hname, hroot⟩
    · rintro ⟨r, hr, hname, hroot⟩
      exact ⟨r, hperm.mem_iff.mpr hr, hname, hroot⟩
  intro n
  rw [computeReachable_mem hr1 n, computeReachable_mem hr2 n]
  exact ⟨InReach_congr hng hrg n,
    InReach_congr (fun nm => (hng nm).symm) (fun nm => (hrg nm).symm) n⟩

/-- The graph loaded from `[rPA1, rPB]` (distinct names). -/
def gW1 : MetaDCEGraph :=
  { nodes := [("a", ⟨"a", ["b"]⟩), ("b", ⟨"b", []⟩)], roots := ["a"],
    importToDCENode := [], exportToDCENode := [] }

/-- The graph loaded from `[rPB, rPA1]` (the swapped order). -/
def gW2 : MetaDCEGraph :=
  { nodes := [("b", ⟨"b", []⟩), ("a", ⟨"a", ["b"]⟩)], roots := ["a"],
    importToDCENode := [], exportToDCENode := [] }

/-- C9 witness: two distinct-name records in both orders; the amended
theorem applies and both Reachable Sets contain `b`. -/
theorem C9_witness :
    ("b" ∈ (["a", "b"] : List String)) ↔
      ("b" ∈ (["a", "b"] : List String)) :=
  C9_order_independence mNoExp [rPA1, rPB] [rPB, rPA1] gW1 gW2
    ["a", "b"] ["a", "b"]
    (by simp [recordName, rPA1, rPB, jGetField, mapFind,
      JValue.getIString])
    (List.Perm.swap rPB rPA1 [])
    rfl rfl
    (by simp [computeReachable, findDangling, gW1, mapFind, bfsWalk])
    (by simp [computeReachable, findDangling, gW2, mapFind, bfsWalk]) "b"
